import Mathlib

/-
Verification of the release-cleanup utility of the kubedoop-helm-charts
repository. The Go sources (chart.go, index.go, git.go, main.go and the
chart-releaser package) are shallowly embedded: the chart-index document is an
association list mirroring the Go `map[string][]*ChartVersion`, git and the
hosting API are abstracted as explicit oracle records, and each workflow is a
pure function over those inputs that also returns the trace of destructive
actions it would perform.
-/

namespace ChartCleanup

/-- A chart version entry of `index.yaml` (`ChartVersion` in index.go). -/
structure ChartVersion where
  name : String
  version : String
  urls : List String
deriving DecidableEq, Repr

/-- Information about a Helm chart read from `Chart.yaml` (`ChartInfo` in chart.go). -/
structure ChartInfo where
  path : String
  name : String
  version : String
deriving DecidableEq, Repr

/-- The `entries` map of `index.yaml`, modelled as an association list from
chart name to version list (Go `map[string][]*ChartVersion`). -/
abbrev Entries := List (String × List ChartVersion)

/-- Map lookup: the first binding of a key (Go `indexFile.Entries[chartName]`
together with the `exists` flag). -/
def lookupEntry : Entries → String → Option (List ChartVersion)
  | [], _ => none
  | p :: rest, k => if p.1 = k then some p.2 else lookupEntry rest k

/-- Map key deletion (Go `delete(indexFile.Entries, chartName)`). -/
def deleteEntry : Entries → String → Entries
  | [], _ => []
  | p :: rest, k => if p.1 = k then deleteEntry rest k else p :: deleteEntry rest k

/-- Map update (Go `indexFile.Entries[chartName] = filteredVersions`). -/
def setEntry : Entries → String → List ChartVersion → Entries
  | [], k, v => [(k, v)]
  | p :: rest, k, v => if p.1 = k then (k, v) :: rest else p :: setEntry rest k v

/-- The version filter of both removal loops: keep exactly the entries whose
version differs from the target. -/
def filterVersions (vs : List ChartVersion) (target : String) : List ChartVersion :=
  vs.filter (fun cv => cv.version != target)

/-- One iteration of the removal loop of `CleanMultipleChartIndexes`
(index.go, lines 143-172): look the chart name up; filter out the target
version; when something was actually removed, store the filtered list back and
drop the key if the list became empty, and report a removal; otherwise leave
the document untouched. -/
def removeOneChart (es : Entries) (c : ChartInfo) : Entries × Bool :=
  match lookupEntry es c.name with
  | none => (es, false)
  | some vs =>
    if (filterVersions vs c.version).length ≠ vs.length then
      (if (filterVersions vs c.version).length = 0 then
        deleteEntry (setEntry es c.name (filterVersions vs c.version)) c.name
      else
        setEntry es c.name (filterVersions vs c.version), true)
    else (es, false)

/-- The whole removal loop of `CleanMultipleChartIndexes`: the resulting
entries map together with the number of removed chart versions
(`len(removedCharts)` in index.go). -/
def removeVersions : Entries → List ChartInfo → Entries × Nat
  | es, [] => (es, 0)
  | es, c :: cs =>
    let r := removeOneChart es c
    let rest := removeVersions r.1 cs
    (rest.1, (if r.2 then 1 else 0) + rest.2)

/-- One iteration of the removal loop of `CleanEntriesVersions`
(chart-releaser/internal/github.go, lines 335-358): filter the target version
out; delete the key when the filtered list is empty, otherwise store the
filtered list back unconditionally. -/
def cleanEntriesStep (es : Entries) (c : ChartInfo) : Entries :=
  match lookupEntry es c.name with
  | none => es
  | some vs =>
    if (filterVersions vs c.version).length = 0 then deleteEntry es c.name
    else setEntry es c.name (filterVersions vs c.version)

/-- The whole removal loop of `CleanEntriesVersions`. -/
def cleanEntriesLoop : Entries → List ChartInfo → Entries
  | es, [] => es
  | es, c :: cs => cleanEntriesLoop (cleanEntriesStep es c) cs

/-- Observable outcome of one index load/mutate/save/commit cycle: the final
in-memory entries map, whether `index.yaml` was rewritten, and whether a
commit was pushed. -/
structure IndexCycleResult where
  entries : Entries
  wrote : Bool
  committed : Bool
deriving DecidableEq, Repr

/-- `CleanMultipleChartIndexes` (index.go, lines 116-203), after the pages
branch has been prepared and the index loaded: with an empty chart list it
returns at once; the file is written back only when `removedCharts` is
nonempty, and the commit additionally requires `git.HasChanges` (the
`gitHasChanges` oracle). -/
def cleanMultipleChartIndexes (es : Entries) (charts : List ChartInfo)
    (gitHasChanges : Bool) : IndexCycleResult :=
  if charts.isEmpty then ⟨es, false, false⟩
  else if (removeVersions es charts).2 > 0 then
    ⟨(removeVersions es charts).1, true, gitHasChanges⟩
  else ⟨(removeVersions es charts).1, false, false⟩

/-- `CleanEntriesVersions` (github.go, lines 324-370), after branch
preparation and index load: it always calls `writeIndexFile`, and
`commitIndexChanges` (lines 249-260) commits exactly when `git.HasChanges`
reports a change. -/
def cleanEntriesVersions (es : Entries) (charts : List ChartInfo)
    (gitHasChanges : Bool) : IndexCycleResult :=
  ⟨cleanEntriesLoop es charts, true, gitHasChanges⟩

/-! Association-list lemmas about `lookupEntry`, `deleteEntry`, `setEntry`. -/

theorem lookupEntry_deleteEntry_self (es : Entries) (k : String) :
    lookupEntry (deleteEntry es k) k = none := by
  induction es with
  | nil => rfl
  | cons p rest ih =>
    by_cases h : p.1 = k
    · simp [deleteEntry, h, ih]
    · simp [deleteEntry, lookupEntry, h, ih]

theorem lookupEntry_deleteEntry_ne (es : Entries) {k q : String} (h : q ≠ k) :
    lookupEntry (deleteEntry es k) q = lookupEntry es q := by
  induction es with
  | nil => rfl
  | cons p rest ih =>
    have h1 : ¬ k = q := fun hh => h hh.symm
    by_cases hp : p.1 = k
    · have hpq : p.1 ≠ q := by rw [hp]; exact h1
      simp [deleteEntry, hp, lookupEntry, hpq, h1, ih]
    · by_cases hq : p.1 = q
      · simp [deleteEntry, hp, lookupEntry, hq, h, h1]
      · simp [deleteEntry, hp, lookupEntry, hq, h, h1, ih]

theorem lookupEntry_setEntry_self (es : Entries) (k : String) (v : List ChartVersion) :
    lookupEntry (setEntry es k v) k = some v := by
  induction es with
  | nil => simp [setEntry, lookupEntry]
  | cons p rest ih =>
    by_cases hp : p.1 = k
    · simp [setEntry, hp, lookupEntry]
    · simp [setEntry, hp, lookupEntry, ih]

theorem lookupEntry_setEntry_ne (es : Entries) {k q : String} (v : List ChartVersion)
    (h : q ≠ k) : lookupEntry (setEntry es k v) q = lookupEntry es q := by
  induction es with
  | nil =>
    have h1 : ¬ k = q := fun hh => h hh.symm
    simp [setEntry, lookupEntry, h1]
  | cons p rest ih =>
    by_cases hp : p.1 = k
    · have h1 : ¬ k = q := fun hh => h hh.symm
      have h2 : ¬ p.1 = q := by rw [hp]; exact h1
      simp [setEntry, hp, lookupEntry, h1, h2]
    · have h1 : ¬ k = q := fun hh => h hh.symm
      by_cases hq : p.1 = q
      · simp [setEntry, hp, lookupEntry, hq, h, h1]
      · simp [setEntry, hp, lookupEntry, hq, h, h1, ih]

theorem mem_deleteEntry {es : Entries} {k : String} {p : String × List ChartVersion}
    (h : p ∈ deleteEntry es k) : p ∈ es ∧ p.1 ≠ k := by
  induction es with
  | nil => cases h
  | cons q rest ih =>
    by_cases hq : q.1 = k
    · simp only [deleteEntry, if_pos hq] at h
      rcases ih h with ⟨h1, h2⟩
      exact ⟨List.mem_cons_of_mem _ h1, h2⟩
    · simp only [deleteEntry, if_neg hq] at h
      rcases List.mem_cons.mp h with h1 | h1
      · subst h1; exact ⟨List.mem_cons_self _ _, hq⟩
      · rcases ih h1 with ⟨h2, h3⟩
        exact ⟨List.mem_cons_of_mem _ h2, h3⟩

theorem mem_setEntry {es : Entries} {k : String} {v : List ChartVersion}
    {p : String × List ChartVersion} (h : p ∈ setEntry es k v) : p ∈ es ∨ p = (k, v) := by
  induction es with
  | nil =>
    simp only [setEntry] at h
    rcases List.mem_cons.mp h with h1 | h1
    · right; exact h1
    · cases h1
  | cons q rest ih =>
    by_cases hq : q.1 = k
    · simp only [setEntry, if_pos hq] at h
      rcases List.mem_cons.mp h with h1 | h1
      · right; exact h1
      · left; exact List.mem_cons_of_mem _ h1
    · simp only [setEntry, if_neg hq] at h
      rcases List.mem_cons.mp h with h1 | h1
      · left; subst h1; exact List.mem_cons_self _ _
      · rcases ih h1 with h2 | h2
        · left; exact List.mem_cons_of_mem _ h2
        · right; exact h2

/-! Lemmas about `filterVersions`. -/

theorem filterVersions_all_ne (vs : List ChartVersion) (t : String) :
    ∀ cv ∈ filterVersions vs t, cv.version ≠ t := by
  intro cv hcv
  have h := List.mem_filter.mp hcv
  simpa using h.2

theorem filterVersions_sub (vs : List ChartVersion) (t : String) :
    ∀ cv ∈ filterVersions vs t, cv ∈ vs :=
  fun _ h => (List.mem_filter.mp h).1

theorem filter_length_eq_all {α : Type} (p : α → Bool) :
    ∀ l : List α, (l.filter p).length = l.length → ∀ x ∈ l, p x = true := by
  intro l
  induction l with
  | nil => intro _ x hx; cases hx
  | cons a t ih =>
    intro h x hx
    cases hp : p a with
    | false =>
      exfalso
      simp only [List.filter_cons, hp] at h
      have hle := List.length_filter_le p t
      simp at h
      omega
    | true =>
      simp only [List.filter_cons, hp, if_true, List.length_cons] at h
      have h2 : (t.filter p).length = t.length := by omega
      rcases List.mem_cons.mp hx with h1 | h1
      · subst h1; exact hp
      · exact ih h2 x h1

theorem filterVersions_length_eq {vs : List ChartVersion} {t : String}
    (h : (filterVersions vs t).length = vs.length) : ∀ cv ∈ vs, cv.version ≠ t := by
  intro cv hcv
  have hp := filter_length_eq_all _ vs h cv hcv
  simpa using hp

theorem filterVersions_eq_self {vs : List ChartVersion} {t : String}
    (h : ∀ cv ∈ vs, cv.version ≠ t) : filterVersions vs t = vs := by
  apply List.filter_eq_self.mpr
  intro cv hcv
  simpa using h cv hcv

/-! Case equations for `removeOneChart`. -/

theorem removeOneChart_eq_of_none {es : Entries} {c : ChartInfo}
    (hl : lookupEntry es c.name = none) : removeOneChart es c = (es, false) := by
  simp [removeOneChart, hl]

theorem removeOneChart_eq_of_keep {es : Entries} {c : ChartInfo} {vs : List ChartVersion}
    (hl : lookupEntry es c.name = some vs)
    (hlen : (filterVersions vs c.version).length = vs.length) :
    removeOneChart es c = (es, false) := by
  simp [removeOneChart, hl, hlen]

theorem removeOneChart_eq_of_del {es : Entries} {c : ChartInfo} {vs : List ChartVersion}
    (hl : lookupEntry es c.name = some vs)
    (hz : (filterVersions vs c.version).length = 0)
    (hlen : (filterVersions vs c.version).length ≠ vs.length) :
    removeOneChart es c
      = (deleteEntry (setEntry es c.name (filterVersions vs c.version)) c.name, true) := by
  have h0 : ¬ (0 : Nat) = vs.length := fun hh => hlen (hz.trans hh)
  simp [removeOneChart, hl, hlen, hz, h0]

theorem removeOneChart_eq_of_set {es : Entries} {c : ChartInfo} {vs : List ChartVersion}
    (hl : lookupEntry es c.name = some vs)
    (hz : (filterVersions vs c.version).length ≠ 0)
    (hlen : (filterVersions vs c.version).length ≠ vs.length) :
    removeOneChart es c = (setEntry es c.name (filterVersions vs c.version), true) := by
  simp [removeOneChart, hl, hlen, hz]

/-! The key invariant behind idempotence: after a chart has been processed,
the entry list stored under its name (if any) contains no occurrence of its
version. -/

/-- The first binding of the chart's name, if present, holds no entry with the
chart's version. -/
def cleared (es : Entries) (c : ChartInfo) : Prop :=
  ∀ vs, lookupEntry es c.name = some vs → ∀ cv ∈ vs, cv.version ≠ c.version

theorem removeOneChart_cleared (es : Entries) (c : ChartInfo) :
    cleared (removeOneChart es c).1 c := by
  cases hl : lookupEntry es c.name with
  | none =>
    rw [removeOneChart_eq_of_none hl]
    intro vs hvs cv hcv
    rw [hl] at hvs; cases hvs
  | some vs0 =>
    by_cases hlen : (filterVersions vs0 c.version).length = vs0.length
    · rw [removeOneChart_eq_of_keep hl hlen]
      intro vs hvs cv hcv
      rw [hl] at hvs
      injection hvs with hv; subst hv
      exact filterVersions_length_eq hlen cv hcv
    · by_cases hz : (filterVersions vs0 c.version).length = 0
      · rw [removeOneChart_eq_of_del hl hz hlen]
        intro vs hvs
        rw [lookupEntry_deleteEntry_self] at hvs; cases hvs
      · rw [removeOneChart_eq_of_set hl hz hlen]
        intro vs hvs cv hcv
        rw [lookupEntry_setEntry_self] at hvs
        injection hvs with hv; subst hv
        exact filterVersions_all_ne vs0 c.version cv hcv

theorem removeOneChart_of_cleared {es : Entries} {c : ChartInfo}
    (h : cleared es c) : removeOneChart es c = (es, false) := by
  cases hl : lookupEntry es c.name with
  | none => exact removeOneChart_eq_of_none hl
  | some vs =>
    have heq : filterVersions vs c.version = vs := filterVersions_eq_self (h vs hl)
    exact removeOneChart_eq_of_keep hl (by rw [heq])

theorem removeOneChart_lookup_ne {es : Entries} {d : ChartInfo} {k : String}
    (h : d.name ≠ k) : lookupEntry (removeOneChart es d).1 k = lookupEntry es k := by
  cases hl : lookupEntry es d.name with
  | none => rw [removeOneChart_eq_of_none hl]
  | some vs =>
    by_cases hlen : (filterVersions vs d.version).length = vs.length
    · rw [removeOneChart_eq_of_keep hl hlen]
    · by_cases hz : (filterVersions vs d.version).length = 0
      · rw [removeOneChart_eq_of_del hl hz hlen]
        rw [lookupEntry_deleteEntry_ne _ (Ne.symm h)]
        exact lookupEntry_setEntry_ne _ _ (Ne.symm h)
      · rw [removeOneChart_eq_of_set hl hz hlen]
        exact lookupEntry_setEntry_ne _ _ (Ne.symm h)

theorem removeOneChart_preserves_cleared {es : Entries} {c : ChartInfo}
    (d : ChartInfo) (h : cleared es c) : cleared (removeOneChart es d).1 c := by
  by_cases hnc : d.name = c.name
  · cases hl : lookupEntry es d.name with
    | none => rw [removeOneChart_eq_of_none hl]; exact h
    | some vs =>
      by_cases hlen : (filterVersions vs d.version).length = vs.length
      · rw [removeOneChart_eq_of_keep hl hlen]; exact h
      · by_cases hz : (filterVersions vs d.version).length = 0
        · rw [removeOneChart_eq_of_del hl hz hlen]
          intro vs1 hvs1
          rw [← hnc] at hvs1
          rw [lookupEntry_deleteEntry_self] at hvs1; cases hvs1
        · rw [removeOneChart_eq_of_set hl hz hlen]
          intro vs1 hvs1 cv hcv
          rw [← hnc] at hvs1
          rw [lookupEntry_setEntry_self] at hvs1
          injection hvs1 with hv; subst hv
          have hvc : lookupEntry es c.name = some vs := by rw [← hnc]; exact hl
          exact h vs hvc cv (filterVersions_sub vs d.version cv hcv)
  · intro vs hvs cv hcv
    rw [removeOneChart_lookup_ne hnc] at hvs
    exact h vs hvs cv hcv

theorem removeVersions_preserves_cleared {c : ChartInfo} (C : List ChartInfo) :
    ∀ es : Entries, cleared es c → cleared (removeVersions es C).1 c := by
  induction C with
  | nil => intro es h; exact h
  | cons d cs ih =>
    intro es h
    simp only [removeVersions]
    exact ih _ (removeOneChart_preserves_cleared d h)

theorem removeVersions_all_cleared (C : List ChartInfo) :
    ∀ es : Entries, ∀ c ∈ C, cleared (removeVersions es C).1 c := by
  induction C with
  | nil => intro es c hc; cases hc
  | cons d cs ih =>
    intro es c hc
    simp only [removeVersions]
    rcases List.mem_cons.mp hc with h1 | h1
    · subst h1
      exact removeVersions_preserves_cleared cs _ (removeOneChart_cleared es c)
    · exact ih (removeOneChart es d).1 c h1

theorem removeVersions_of_all_cleared (C : List ChartInfo) :
    ∀ es : Entries, (∀ c ∈ C, cleared es c) → removeVersions es C = (es, 0) := by
  induction C with
  | nil => intro es _; rfl
  | cons d cs ih =>
    intro es h
    have hstep := removeOneChart_of_cleared (h d (List.mem_cons_self d cs))
    have hrest := ih es (fun c hc => h c (List.mem_cons_of_mem d hc))
    simp [removeVersions, hstep, hrest]

theorem removeOneChart_of_false {es : Entries} {c : ChartInfo}
    (h : (removeOneChart es c).2 = false) : (removeOneChart es c).1 = es := by
  cases hl : lookupEntry es c.name with
  | none => rw [removeOneChart_eq_of_none hl]
  | some vs =>
    by_cases hlen : (filterVersions vs c.version).length = vs.length
    · rw [removeOneChart_eq_of_keep hl hlen]
    · exfalso
      by_cases hz : (filterVersions vs c.version).length = 0
      · rw [removeOneChart_eq_of_del hl hz hlen] at h; cases h
      · rw [removeOneChart_eq_of_set hl hz hlen] at h; cases h

theorem removeVersions_count_zero (C : List ChartInfo) :
    ∀ es : Entries, (removeVersions es C).2 = 0 → (removeVersions es C).1 = es := by
  induction C with
  | nil => intro es _; rfl
  | cons d cs ih =>
    intro es h
    simp only [removeVersions] at h ⊢
    cases hb : (removeOneChart es d).2 with
    | false =>
      rw [hb] at h
      simp only [if_neg Bool.false_ne_true, Nat.zero_add] at h
      have h1 := removeOneChart_of_false hb
      rw [h1] at h ⊢
      exact ih es h
    | true =>
      rw [hb] at h
      simp at h

/-! Preservation of the no-empty-list invariant. -/

theorem removeOneChart_noEmpty {es : Entries} {c : ChartInfo}
    (h : ∀ p ∈ es, p.2 ≠ []) : ∀ p ∈ (removeOneChart es c).1, p.2 ≠ [] := by
  cases hl : lookupEntry es c.name with
  | none => rw [removeOneChart_eq_of_none hl]; exact h
  | some vs =>
    by_cases hlen : (filterVersions vs c.version).length = vs.length
    · rw [removeOneChart_eq_of_keep hl hlen]; exact h
    · by_cases hz : (filterVersions vs c.version).length = 0
      · rw [removeOneChart_eq_of_del hl hz hlen]
        intro p hp
        rcases mem_deleteEntry hp with ⟨hp1, hp2⟩
        rcases mem_setEntry hp1 with hp3 | hp3
        · exact h p hp3
        · exact absurd (by rw [hp3]) hp2
      · rw [removeOneChart_eq_of_set hl hz hlen]
        intro p hp
        rcases mem_setEntry hp with hp1 | hp1
        · exact h p hp1
        · rw [hp1]
          intro hemp
          have hemp2 : filterVersions vs c.version = [] := hemp
          exact hz (by rw [hemp2]; rfl)

theorem removeVersions_noEmpty_aux (C : List ChartInfo) :
    ∀ es : Entries, (∀ p ∈ es, p.2 ≠ []) → ∀ p ∈ (removeVersions es C).1, p.2 ≠ [] := by
  induction C with
  | nil => intro es h; exact h
  | cons d cs ih =>
    intro es h
    simp only [removeVersions]
    exact ih _ (removeOneChart_noEmpty h)

/-! Frame lemmas. -/

theorem removeVersions_lookup_ne (C : List ChartInfo) :
    ∀ (es : Entries) (k : String), (∀ c ∈ C, c.name ≠ k) →
      lookupEntry (removeVersions es C).1 k = lookupEntry es k := by
  induction C with
  | nil => intro es k _; rfl
  | cons d cs ih =>
    intro es k h
    simp only [removeVersions]
    rw [ih _ k (fun c hc => h c (List.mem_cons_of_mem d hc))]
    exact removeOneChart_lookup_ne (h d (List.mem_cons_self d cs))

/-- The chart version `cv` occurs in the entry list stored under key `k`. -/
abbrev memVersion (es : Entries) (k : String) (cv : ChartVersion) : Prop :=
  cv ∈ (lookupEntry es k).getD []

theorem removeOneChart_memVersion {es : Entries} {k : String} {cv : ChartVersion}
    (d : ChartInfo) (hd : d.name = k → cv.version ≠ d.version)
    (h : memVersion es k cv) : memVersion (removeOneChart es d).1 k cv := by
  by_cases hdk : d.name = k
  · subst hdk
    unfold memVersion at h ⊢
    cases hl : lookupEntry es d.name with
    | none => rw [removeOneChart_eq_of_none hl]; exact h
    | some vs =>
      rw [hl] at h
      simp only [Option.getD_some] at h
      have hne : cv.version ≠ d.version := hd rfl
      have hmem : cv ∈ filterVersions vs d.version :=
        List.mem_filter.mpr ⟨h, by simp [hne]⟩
      by_cases hlen : (filterVersions vs d.version).length = vs.length
      · rw [removeOneChart_eq_of_keep hl hlen, hl]
        simpa using h
      · have hz : (filterVersions vs d.version).length ≠ 0 := by
          intro h0
          rw [List.length_eq_zero] at h0
          rw [h0] at hmem; cases hmem
        rw [removeOneChart_eq_of_set hl hz hlen, lookupEntry_setEntry_self]
        simpa using hmem
  · unfold memVersion at h ⊢
    rw [removeOneChart_lookup_ne hdk]
    exact h

theorem removeVersions_memVersion (C : List ChartInfo) :
    ∀ (es : Entries) (k : String) (cv : ChartVersion),
      (∀ c ∈ C, c.name = k → cv.version ≠ c.version) →
      memVersion es k cv → memVersion (removeVersions es C).1 k cv := by
  induction C with
  | nil => intro es k cv _ h; exact h
  | cons d cs ih =>
    intro es k cv hall h
    simp only [removeVersions]
    exact ih _ k cv (fun c hc => hall c (List.mem_cons_of_mem d hc))
      (removeOneChart_memVersion d (hall d (List.mem_cons_self d cs)) h)

/-! Sample data for witnesses. -/

/-- A small index document with two charts. -/
def sampleIndex : Entries :=
  [("a", [⟨"a", "0.0.0-dev", []⟩]), ("b", [⟨"b", "1.2.3", []⟩])]

/-- A chart list naming only chart a. -/
def sampleCharts : List ChartInfo := [⟨"charts/a", "a", "0.0.0-dev"⟩]

/-- A chart list naming a chart absent from `sampleIndex`. -/
def absentCharts : List ChartInfo := [⟨"charts/z", "z", "0.0.0-dev"⟩]

/-! Claim theorems about the index-mutation cycle. -/

/-- C3: idempotence of version removal — applying the `removeVersions`
transformation of `CleanMultipleChartIndexes` twice with the same chart list
yields the same entries map as applying it once. -/
theorem removeVersions_idempotent (es : Entries) (C : List ChartInfo) :
    (removeVersions (removeVersions es C).1 C).1 = (removeVersions es C).1 := by
  rw [removeVersions_of_all_cleared C (removeVersions es C).1 (removeVersions_all_cleared C es)]

/-- C4 (amended): `removeVersions` preserves the no-empty-list invariant — if
no key of the input document is bound to an empty version list, then no key of
the resulting document is; a pre-existing empty entry list in the input can
survive, so the unconditional claim fails (see the counterexample). -/
theorem removeVersions_no_empty_residue (es : Entries) (C : List ChartInfo)
    (h : ∀ p ∈ es, p.2 ≠ []) : ∀ p ∈ (removeVersions es C).1, p.2 ≠ [] :=
  removeVersions_noEmpty_aux C es h

/-- C4 counterexample: a document binding chart a to an empty version list,
with chart a itself in the chart list, still binds a to the empty list after
`removeVersions` — the filter removes nothing, so the length-compare guard of
index.go leaves the dangling empty entry in place. -/
theorem removeVersions_empty_residue_cex :
    ("a", ([] : List ChartVersion))
      ∈ (removeVersions [("a", [])] [⟨"charts/a", "a", "1.0.0"⟩]).1 := by
  decide

/-- C4 witness: applying the amended theorem at a concrete document whose
lists are all nonempty shows no empty binding can appear in the result. -/
theorem removeVersions_no_empty_residue_witness :
    ("a", ([] : List ChartVersion)) ∉ (removeVersions sampleIndex sampleCharts).1 :=
  fun h => removeVersions_no_empty_residue sampleIndex sampleCharts (by decide) ("a", []) h rfl

/-- C5: frame property of `removeVersions` — a key named by no chart of the
list keeps exactly its version list, and a version entry under key `k` whose
version differs from the target version of every listed chart named `k` is
still present afterwards. -/
theorem removeVersions_frame (es : Entries) (C : List ChartInfo) (k : String) :
    ((∀ c ∈ C, c.name ≠ k) →
      lookupEntry (removeVersions es C).1 k = lookupEntry es k) ∧
    (∀ cv : ChartVersion, (∀ c ∈ C, c.name = k → cv.version ≠ c.version) →
      memVersion es k cv → memVersion (removeVersions es C).1 k cv) :=
  ⟨removeVersions_lookup_ne C es k,
   fun cv h1 h2 => removeVersions_memVersion C es k cv h1 h2⟩

/-- C5 witness: in `sampleIndex`, removing chart a leaves the binding of the
unrelated chart b untouched, and b's version entry is still present. -/
theorem removeVersions_frame_witness :
    lookupEntry (removeVersions sampleIndex sampleCharts).1 "b"
        = lookupEntry sampleIndex "b" ∧
    memVersion (removeVersions sampleIndex sampleCharts).1 "b" ⟨"b", "1.2.3", []⟩ :=
  ⟨(removeVersions_frame sampleIndex sampleCharts "b").1 (by decide),
   (removeVersions_frame sampleIndex sampleCharts "b").2 ⟨"b", "1.2.3", []⟩
     (by decide) (by decide)⟩

/-- C2 (amended): in `CleanMultipleChartIndexes` (index.go), if the removal
loop removes no entry then the index file is not rewritten and no commit is
created; `CleanEntriesVersions` (chart-releaser github.go) instead always
rewrites the index file, and commits exactly when git reports the file
changed. -/
theorem indexCycle_noop (es : Entries) (charts : List ChartInfo) (g : Bool) :
    ((removeVersions es charts).2 = 0 →
      cleanMultipleChartIndexes es charts g = ⟨es, false, false⟩) ∧
    (cleanEntriesVersions es charts g).wrote = true ∧
    (cleanEntriesVersions es charts g).committed = g := by
  refine ⟨?_, rfl, rfl⟩
  intro h
  unfold cleanMultipleChartIndexes
  by_cases hc : charts.isEmpty
  · rw [if_pos hc]
  · rw [if_neg hc, if_neg (by omega : ¬ (removeVersions es charts).2 > 0)]
    rw [removeVersions_count_zero charts es h]

/-- C2 counterexample: `CleanEntriesVersions` rewrites the index file even
when the chart list names only a chart absent from the document, so nothing
is removed — the claim that a no-op removal leaves the file unwritten fails
for this variant. -/
theorem cleanEntriesVersions_writes_on_noop_cex :
    (removeVersions sampleIndex absentCharts).2 = 0 ∧
    cleanEntriesVersions sampleIndex absentCharts false
      = ⟨sampleIndex, true, false⟩ := by
  constructor
  · decide
  · decide

/-- C2 witness: the index.go cycle at a concrete no-op input neither writes
nor commits. -/
theorem indexCycle_noop_witness :
    cleanMultipleChartIndexes sampleIndex absentCharts true
      = ⟨sampleIndex, false, false⟩ :=
  (indexCycle_noop sampleIndex absentCharts true).1 (by decide)

/-! Path handling: a model of Go `strings.Split` on the unix separator and of
`path/filepath` `Clean` and `Join`, as used by `GetChangedCharts` (chart.go,
lines 82-90, and the identical loop of release_manager.go). -/

/-- Go `strings.Split(s, "/")` on the character list of a path. -/
def splitOnSlash : List Char → List (List Char)
  | [] => [[]]
  | c :: rest =>
    if c = '/' then [] :: splitOnSlash rest
    else
      match splitOnSlash rest with
      | [] => [[c]]
      | seg :: segs => (c :: seg) :: segs

/-- The element-resolution stack of Go `path.Clean`: empty and `.` elements
are dropped; `..` pops an ordinary top element, is dropped at the root of a
rooted path, and is kept when a relative path has nothing left to pop;
ordinary elements are pushed. The stack is in reverse order. -/
def cleanStack (rooted : Bool) : List (List Char) → List (List Char) → List (List Char)
  | stack, [] => stack
  | stack, seg :: rest =>
    if seg = [] ∨ seg = ['.'] then cleanStack rooted stack rest
    else if seg = ['.', '.'] then
      match stack with
      | [] => cleanStack rooted (if rooted then [] else [['.', '.']]) rest
      | top :: s2 =>
        if top = ['.', '.'] then cleanStack rooted (seg :: top :: s2) rest
        else cleanStack rooted s2 rest
    else cleanStack rooted (seg :: stack) rest

/-- Join path segments with the separator. -/
def joinSegs : List (List Char) → List Char
  | [] => []
  | [s] => s
  | s :: rest => s ++ '/' :: joinSegs rest

/-- Go `filepath.Clean` restricted to the unix separator: lexically shortest
equivalent path, `.` for an empty result. -/
def cleanPath (p : List Char) : List Char :=
  let rooted := match p with | '/' :: _ => true | _ => false
  let segs := (cleanStack rooted [] (splitOnSlash p)).reverse
  let out := (if rooted then ['/'] else []) ++ joinSegs segs
  if out = [] then ['.'] else out

/-- Go `filepath.Join` of two elements: empty elements are dropped, the rest
joined with the separator and cleaned; all-empty input yields the empty
path. -/
def joinPath (a b : List Char) : List Char :=
  match a, b with
  | [], [] => []
  | [], b => cleanPath b
  | a, [] => cleanPath a
  | a, b => cleanPath (a ++ '/' :: b)

/-- Candidate recording over the segments of one cleaned path (chart.go,
lines 85-89): with at least two segments whose first equals the charts
directory, `filepath.Join(chartsDir, parts[1])` is added once (Go
`map[string]bool` used as a set, modelled in first-seen order). -/
def dirStepSegs (chartsDir : String) (acc : List String) :
    List (List Char) → List String
  | p0 :: p1 :: _ =>
    if p0 = chartsDir.data then
      if String.mk (joinPath chartsDir.data p1) ∈ acc then acc
      else acc ++ [String.mk (joinPath chartsDir.data p1)]
    else acc
  | _ => acc

/-- One step of the candidate-directory accumulation of `GetChangedCharts`:
the changed file path is cleaned, split on the separator, and examined. -/
def dirStep (chartsDir : String) (acc : List String) (fp : String) : List String :=
  dirStepSegs chartsDir acc (splitOnSlash (cleanPath fp.data))

def chartDirsAux (chartsDir : String) : List String → List String → List String
  | acc, [] => acc
  | acc, fp :: rest => chartDirsAux chartsDir (dirStep chartsDir acc fp) rest

/-- The candidate chart directories extracted from the changed files
(chart.go, lines 83-90). -/
def chartDirsOf (chartsDir : String) (files : List String) : List String :=
  chartDirsAux chartsDir [] files

/-- Follows the spec's words of C6, for comparison with `chartDirsOf`: the
joins of the first two path segments of the raw, uncleaned paths whose first
segment equals the chart directory. -/
def chartDirsSpecWords (chartsDir : String) (files : List String) : List String :=
  let step := fun acc fp => dirStepSegs chartsDir acc (splitOnSlash (String.data fp))
  files.foldl step []

/-- The path nominates directory `d`: its cleaned form has at least two
segments, the first equals the charts directory, and `d` is the join of the
first two. -/
def isCandidate (chartsDir fp d : String) : Prop :=
  ∃ p1 rest, splitOnSlash (cleanPath fp.data) = chartsDir.data :: p1 :: rest ∧
    d = String.mk (joinPath chartsDir.data p1)

theorem mem_dirStepSegs {cd : String} {acc : List String} {d : String}
    (segs : List (List Char)) :
    d ∈ dirStepSegs cd acc segs ↔ d ∈ acc ∨
      ∃ p1 rest, segs = cd.data :: p1 :: rest ∧
        d = String.mk (joinPath cd.data p1) := by
  cases segs with
  | nil => simp [dirStepSegs]
  | cons p0 t =>
    cases t with
    | nil => simp [dirStepSegs]
    | cons p1 rest =>
      by_cases hp : p0 = cd.data
      · subst hp
        by_cases hmem : String.mk (joinPath cd.data p1) ∈ acc
        · simp only [dirStepSegs, eq_self_iff_true, if_true, if_pos hmem]
          constructor
          · intro h; exact Or.inl h
          · rintro (h | ⟨q1, qr, heq, hd⟩)
            · exact h
            · injection heq with h1 h2
              injection h2 with h2a h2b
              subst h2a
              rw [hd]; exact hmem
        · simp only [dirStepSegs, eq_self_iff_true, if_true, if_neg hmem]
          rw [List.mem_append, List.mem_singleton]
          constructor
          · rintro (h | h)
            · exact Or.inl h
            · exact Or.inr ⟨p1, rest, rfl, h⟩
          · rintro (h | ⟨q1, qr, heq, hd⟩)
            · exact Or.inl h
            · injection heq with h1 h2
              injection h2 with h2a h2b
              subst h2a
              exact Or.inr hd
      · have hno : ¬ ∃ q1 qr, p0 :: p1 :: rest = cd.data :: q1 :: qr ∧
            d = String.mk (joinPath cd.data q1) := by
          rintro ⟨q1, qr, heq, _⟩
          injection heq with h1 _
          exact hp h1
        simp [dirStepSegs, hp, hno]

theorem mem_chartDirsAux (cd : String) (files : List String) :
    ∀ (acc : List String) (d : String),
      d ∈ chartDirsAux cd acc files ↔ d ∈ acc ∨ ∃ fp ∈ files, isCandidate cd fp d := by
  induction files with
  | nil => intro acc d; simp [chartDirsAux]
  | cons fp rest ih =>
    intro acc d
    simp only [chartDirsAux]
    rw [ih]
    rw [show dirStep cd acc fp = dirStepSegs cd acc (splitOnSlash (cleanPath fp.data)) from rfl,
      mem_dirStepSegs]
    constructor
    · rintro ((h | h) | ⟨q, hq, hcand⟩)
      · exact Or.inl h
      · exact Or.inr ⟨fp, List.mem_cons_self _ _, h⟩
      · exact Or.inr ⟨q, List.mem_cons_of_mem _ hq, hcand⟩
    · rintro (h | ⟨q, hq, hcand⟩)
      · exact Or.inl (Or.inl h)
      · rcases List.mem_cons.mp hq with h1 | h1
        · subst h1; exact Or.inl (Or.inr hcand)
        · exact Or.inr ⟨q, h1, hcand⟩

/-- C6 (amended): the candidate chart directories are exactly the joins of
the first two segments of the lexically cleaned (`filepath.Clean`) changed
paths whose first cleaned segment equals the chart directory; in particular,
the worked example yields exactly charts/a and charts/b. -/
theorem chartDirs_characterization :
    (∀ (chartsDir : String) (files : List String) (d : String),
      d ∈ chartDirsOf chartsDir files ↔ ∃ fp ∈ files, isCandidate chartsDir fp d) ∧
    chartDirsOf "charts"
        ["charts/a/Chart.yaml", "charts/a/values.yaml", "charts/b/README.md"]
      = ["charts/a", "charts/b"] := by
  constructor
  · intro cd files d
    rw [chartDirsOf, mem_chartDirsAux]
    simp
  · decide

/-- C6 counterexample: on the changed file ./charts/a/Chart.yaml the code
cleans the path first and produces candidate charts/a, while the raw first
segment is `.` and the claim's set of raw-segment joins is empty. -/
theorem chartDirs_spec_words_cex :
    "charts/a" ∈ chartDirsOf "charts" ["./charts/a/Chart.yaml"] ∧
    "charts/a" ∉ chartDirsSpecWords "charts" ["./charts/a/Chart.yaml"] := by
  constructor
  · decide
  · decide

/-! Regular-expression matching. `VersionMatchesPattern` (chart.go, lines
70-76, and the identical `versionMatchesPattern` of release_manager.go)
compiles the pattern with Go `regexp.Compile` and calls `MatchString`, which
looks for a match anywhere in the string. The external Go engine is modelled
here on the fragment the version patterns use: literal characters,
backslash-escaped punctuation, the any-character class `.`, and the anchors
`^` and `$`; other metacharacters and letter or digit escape classes are
outside the modelled fragment and are treated as compile failures. -/

/-- One compiled pattern atom. -/
inductive RAtom where
  | lit (c : Char)
  | dot
  | bol
  | eol
deriving DecidableEq, Repr

/-- Metacharacters outside the modelled fragment. -/
def unsupportedMeta (c : Char) : Bool :=
  c ∈ ['*', '+', '?', '|', '(', ')', '[', ']', '\x7b', '\x7d']

/-- Compile a pattern to a list of atoms; `none` models a `regexp.Compile`
failure (a trailing backslash, an escape class, an unsupported
metacharacter). -/
def compilePattern : List Char → Option (List RAtom)
  | [] => some []
  | '\\' :: [] => none
  | '\\' :: c :: rest =>
    if c.isAlphanum then none
    else (compilePattern rest).map (fun re => RAtom.lit c :: re)
  | '.' :: rest => (compilePattern rest).map (fun re => RAtom.dot :: re)
  | '^' :: rest => (compilePattern rest).map (fun re => RAtom.bol :: re)
  | '$' :: rest => (compilePattern rest).map (fun re => RAtom.eol :: re)
  | c :: rest =>
    if unsupportedMeta c then none
    else (compilePattern rest).map (fun re => RAtom.lit c :: re)

/-- Match the atom sequence against the string `s` starting at position `i`:
`^` holds only at the start of the text, `$` only at its end, `.` matches any
character except a newline. -/
def matchAtomsFrom : List RAtom → List Char → Nat → Bool
  | [], _, _ => true
  | RAtom.lit c :: rest, s, i => s.get? i == some c && matchAtomsFrom rest s (i + 1)
  | RAtom.dot :: rest, s, i =>
    match s.get? i with
    | some ch => ch != '\n' && matchAtomsFrom rest s (i + 1)
    | none => false
  | RAtom.bol :: rest, s, i => i == 0 && matchAtomsFrom rest s i
  | RAtom.eol :: rest, s, i => i == s.length && matchAtomsFrom rest s i

/-- Go `MatchString` semantics: the pattern matches at some position of the
text. -/
def regexMatches (re : List RAtom) (s : List Char) : Bool :=
  (List.range (s.length + 1)).any (fun i => matchAtomsFrom re s i)

/-- `VersionMatchesPattern` (chart.go, lines 70-76): an error exactly when
the pattern fails to compile, otherwise the unanchored match result. -/
def VersionMatchesPattern (version pattern : String) : Except String Bool :=
  match compilePattern pattern.data with
  | none => Except.error ("invalid regex pattern: " ++ pattern)
  | some re => Except.ok (regexMatches re version.data)

/-- C9: version-pattern matching semantics — `VersionMatchesPattern` errors
exactly when the pattern fails to compile, otherwise returns the engine's
unanchored match result; the spec's table entries evaluate as claimed. -/
theorem versionMatchesPattern_semantics :
    (∀ v p : String,
      (∃ e, VersionMatchesPattern v p = Except.error e) ↔
        compilePattern p.data = none) ∧
    (∀ (v p : String) (re : List RAtom), compilePattern p.data = some re →
      VersionMatchesPattern v p = Except.ok (regexMatches re v.data)) ∧
    VersionMatchesPattern "0.0.0-dev" "^0\\.0\\.0-dev$" = Except.ok true ∧
    VersionMatchesPattern "1.2.3" "^0\\.0\\.0-dev$" = Except.ok false := by
  refine ⟨?_, ?_, by rfl, by rfl⟩
  · intro v p
    cases hc : compilePattern p.data with
    | none => simp [VersionMatchesPattern, hc]
    | some re => simp [VersionMatchesPattern, hc]
  · intro v p re hc
    simp [VersionMatchesPattern, hc]

/-- The compiled form of the default deletion pattern. -/
def devPatternAtoms : List RAtom :=
  [RAtom.bol, RAtom.lit '0', RAtom.lit '.', RAtom.lit '0', RAtom.lit '.',
   RAtom.lit '0', RAtom.lit '-', RAtom.lit 'd', RAtom.lit 'e', RAtom.lit 'v',
   RAtom.eol]

/-- C9 witness: the semantics theorem applied at the concrete table input. -/
theorem versionMatchesPattern_semantics_witness :
    VersionMatchesPattern "1.2.3" "^0\\.0\\.0-dev$"
      = Except.ok (regexMatches devPatternAtoms "1.2.3".data) :=
  versionMatchesPattern_semantics.2.1 "1.2.3" "^0\\.0\\.0-dev$" devPatternAtoms (by decide)

/-! Chart scanning. The filesystem reads of `IsHelmChart` and `GetChartInfo`
(chart.go, lines 40-67) are abstracted as an oracle record; the validation
loop of `GetChangedCharts` (chart.go, lines 93-116) is embedded over it. -/

/-- The fields of Chart.yaml the tool reads (`ChartMetadata` in chart.go). -/
structure ChartMetadata where
  name : String
  version : String
deriving DecidableEq, Repr

/-- Filesystem oracle: whether Chart.yaml exists in a directory
(`IsHelmChart`), and the parsed metadata when it can be read and parsed
(`GetChartInfo`, where `none` is a read or parse error). -/
structure ChartFS where
  hasChartYaml : String → Bool
  chartInfo : String → Option ChartMetadata

/-- The per-directory validation loop of `GetChangedCharts` (chart.go, lines
93-116): skip a directory without Chart.yaml, skip a directory whose
Chart.yaml cannot be read or parsed (logged only), fail on a pattern compile
error, fail when the version does not match the pattern, otherwise collect
the chart. -/
def processChartDirs (fs : ChartFS) (pattern : String) :
    List String → List ChartInfo → Except String (List ChartInfo)
  | [], acc => Except.ok acc
  | dir :: rest, acc =>
    if fs.hasChartYaml dir = false then processChartDirs fs pattern rest acc
    else
      match fs.chartInfo dir with
      | none => processChartDirs fs pattern rest acc
      | some md =>
        match VersionMatchesPattern md.version pattern with
        | Except.error e => Except.error ("error checking version pattern: " ++ e)
        | Except.ok false =>
          Except.error ("chart version " ++ md.version
            ++ " does not match supported pattern for deletion: " ++ pattern)
        | Except.ok true => processChartDirs fs pattern rest (acc ++ [⟨dir, md.name, md.version⟩])

/-- `GetChangedCharts` (chart.go, lines 79-119): group the changed files into
candidate directories, then validate each candidate. -/
def GetChangedCharts (fs : ChartFS) (chartsDir : String) (changedFiles : List String)
    (pattern : String) : Except String (List ChartInfo) :=
  processChartDirs fs pattern (chartDirsOf chartsDir changedFiles) []

/-- A destructive action of the delete-changed workflow. -/
inductive RelAction where
  | deleteReleaseByTag (tag : String)
  | deleteTag (tag : String)
  | cleanIndexes (charts : List ChartInfo)
deriving DecidableEq, Repr

/-- The delete-changed workflow `deleteSpecificReleases` (main.go, lines
137-210) after the changed files have been resolved: the trace of attempted
release, tag and index deletions, and the command's outcome. A
`GetChangedCharts` failure aborts the run before any action; per-chart
deletion failures only log and continue, and the batch index cleanup runs at
the end. -/
def deleteSpecificReleases (fs : ChartFS) (chartsDir : String)
    (changedFiles : List String) (pattern : String) :
    List RelAction × Except String Unit :=
  match GetChangedCharts fs chartsDir changedFiles pattern with
  | Except.error e => ([], Except.error ("failed to get changed charts: " ++ e))
  | Except.ok charts =>
    if charts.isEmpty then ([], Except.ok ())
    else
      ((charts.map (fun c =>
          [RelAction.deleteReleaseByTag (c.name ++ "-" ++ c.version),
           RelAction.deleteTag (c.name ++ "-" ++ c.version)])).flatten
        ++ [RelAction.cleanIndexes charts], Except.ok ())

theorem processChartDirs_ok_all (fs : ChartFS) (pattern : String) :
    ∀ (dirs : List String) (acc l : List ChartInfo),
      processChartDirs fs pattern dirs acc = Except.ok l →
      ∀ dir ∈ dirs, ∀ md, fs.hasChartYaml dir = true → fs.chartInfo dir = some md →
        VersionMatchesPattern md.version pattern = Except.ok true := by
  intro dirs
  induction dirs with
  | nil => intro acc l _ dir hdir; cases hdir
  | cons d rest ih =>
    intro acc l h dir hdir md hyaml hinfo
    rcases List.mem_cons.mp hdir with h1 | h1
    · subst h1
      cases hv : VersionMatchesPattern md.version pattern with
      | error e =>
        exfalso
        simp [processChartDirs, hyaml, hinfo, hv] at h
      | ok b =>
        cases b with
        | false =>
          exfalso
          simp [processChartDirs, hyaml, hinfo, hv] at h
        | true => rfl
    · by_cases hy : fs.hasChartYaml d = false
      · rw [processChartDirs, if_pos hy] at h
        exact ih acc l h dir h1 md hyaml hinfo
      · cases hi : fs.chartInfo d with
        | none =>
          simp only [processChartDirs, if_neg hy, hi] at h
          exact ih acc l h dir h1 md hyaml hinfo
        | some md0 =>
          cases hv : VersionMatchesPattern md0.version pattern with
          | error e =>
            exfalso
            simp [processChartDirs, hy, hi, hv] at h
          | ok b =>
            cases b with
            | false =>
              exfalso
              simp [processChartDirs, hy, hi, hv] at h
            | true =>
              simp only [processChartDirs, if_neg hy, hi, hv] at h
              exact ih _ l h dir h1 md hyaml hinfo

/-- C1: fail-closed validation — whenever some candidate chart directory has
a readable, parseable Chart.yaml whose version does not match the version
pattern, `GetChangedCharts` returns an error (and hence no chart list), and
the delete-changed workflow aborts with an error before performing any
release, tag or index deletion. -/
theorem getChangedCharts_fail_closed (fs : ChartFS) (chartsDir pattern : String)
    (files : List String) (dir : String) (md : ChartMetadata)
    (h1 : dir ∈ chartDirsOf chartsDir files)
    (h2 : fs.hasChartYaml dir = true)
    (h3 : fs.chartInfo dir = some md)
    (h4 : VersionMatchesPattern md.version pattern = Except.ok false) :
    (∃ e, GetChangedCharts fs chartsDir files pattern = Except.error e) ∧
    (deleteSpecificReleases fs chartsDir files pattern).1 = [] ∧
    (∃ e, (deleteSpecificReleases fs chartsDir files pattern).2 = Except.error e) := by
  have herr : ∃ e, GetChangedCharts fs chartsDir files pattern = Except.error e := by
    cases hres : GetChangedCharts fs chartsDir files pattern with
    | error e => exact ⟨e, rfl⟩
    | ok l =>
      exfalso
      have := processChartDirs_ok_all fs pattern (chartDirsOf chartsDir files) [] l hres
        dir h1 md h2 h3
      rw [h4] at this
      cases this
  rcases herr with ⟨e, he⟩
  refine ⟨⟨e, he⟩, ?_, ?_⟩
  · rw [deleteSpecificReleases, he]
  · rw [deleteSpecificReleases, he]
    exact ⟨_, rfl⟩

/-- A filesystem with a single chart whose version 1.0.0 is not deletable. -/
def mismatchFS : ChartFS :=
  ⟨fun d => d == "charts/a",
   fun d => if d == "charts/a" then some ⟨"a", "1.0.0"⟩ else none⟩

/-- C1 witness: a changed chart with version 1.0.0 under the default dev
pattern makes the run abort with an empty action trace. -/
theorem getChangedCharts_fail_closed_witness :
    (deleteSpecificReleases mismatchFS "charts" ["charts/a/Chart.yaml"]
      "^0\\.0\\.0-dev$").1 = [] :=
  (getChangedCharts_fail_closed mismatchFS "charts" "^0\\.0\\.0-dev$"
    ["charts/a/Chart.yaml"] "charts/a" ⟨"a", "1.0.0"⟩
    (by decide) (by decide) (by decide) (by rfl)).2.1

theorem processChartDirs_skip (fs : ChartFS) (pattern : String) (dir : String)
    (h1 : fs.hasChartYaml dir = true) (h2 : fs.chartInfo dir = none) :
    ∀ (dirs : List String) (acc : List ChartInfo),
      processChartDirs fs pattern dirs acc
        = processChartDirs fs pattern (dirs.filter (fun x => x != dir)) acc := by
  intro dirs
  induction dirs with
  | nil => intro acc; rfl
  | cons d rest ih =>
    intro acc
    by_cases hd : d = dir
    · subst hd
      have hfd : (d != d) = false := by simp
      rw [List.filter_cons, hfd]
      simp only [processChartDirs, h1, h2]
      simp only [Bool.true_eq_false, if_false]
      exact ih acc
    · have hfd : (d != dir) = true := by simp [hd]
      rw [List.filter_cons, hfd]
      simp only [if_true]
      by_cases hy : fs.hasChartYaml d = false
      · rw [processChartDirs, if_pos hy, processChartDirs, if_pos hy]
        exact ih acc
      · cases hi : fs.chartInfo d with
        | none =>
          simp only [processChartDirs, if_neg hy, hi]
          exact ih acc
        | some md0 =>
          cases hv : VersionMatchesPattern md0.version pattern with
          | error e => simp only [processChartDirs, if_neg hy, hi, hv]
          | ok b =>
            cases b with
            | false => simp only [processChartDirs, if_neg hy, hi, hv]
            | true =>
              simp only [processChartDirs, if_neg hy, hi, hv]
              exact ih _

theorem processChartDirs_ok_paths (fs : ChartFS) (pattern : String) :
    ∀ (dirs : List String) (acc l : List ChartInfo),
      processChartDirs fs pattern dirs acc = Except.ok l →
      ∀ c ∈ l, c ∈ acc ∨ c.path ∈ dirs := by
  intro dirs
  induction dirs with
  | nil =>
    intro acc l h c hc
    simp only [processChartDirs] at h
    injection h with h
    subst h
    exact Or.inl hc
  | cons d rest ih =>
    intro acc l h c hc
    by_cases hy : fs.hasChartYaml d = false
    · rw [processChartDirs, if_pos hy] at h
      rcases ih acc l h c hc with h1 | h1
      · exact Or.inl h1
      · exact Or.inr (List.mem_cons_of_mem _ h1)
    · cases hi : fs.chartInfo d with
      | none =>
        simp only [processChartDirs, if_neg hy, hi] at h
        rcases ih acc l h c hc with h1 | h1
        · exact Or.inl h1
        · exact Or.inr (List.mem_cons_of_mem _ h1)
      | some md0 =>
        cases hv : VersionMatchesPattern md0.version pattern with
        | error e => simp [processChartDirs, hy, hi, hv] at h
        | ok b =>
          cases b with
          | false => simp [processChartDirs, hy, hi, hv] at h
          | true =>
            simp only [processChartDirs, if_neg hy, hi, hv] at h
            rcases ih _ l h c hc with h1 | h1
            · rcases List.mem_append.mp h1 with h2 | h2
              · exact Or.inl h2
              · rw [List.mem_singleton] at h2
                subst h2
                exact Or.inr (List.mem_cons_self _ _)
            · exact Or.inr (List.mem_cons_of_mem _ h1)

/-- C10: a candidate directory whose Chart.yaml exists but cannot be read or
parsed is only logged and skipped — `GetChangedCharts` behaves as if the
directory were absent from the candidate list (so no error arises from it and
its version is never checked), and no returned chart comes from it. -/
theorem getChangedCharts_skips_unreadable (fs : ChartFS) (chartsDir pattern : String)
    (files : List String) (dir : String)
    (h1 : fs.hasChartYaml dir = true) (h2 : fs.chartInfo dir = none) :
    (GetChangedCharts fs chartsDir files pattern
      = processChartDirs fs pattern
          ((chartDirsOf chartsDir files).filter (fun x => x != dir)) []) ∧
    (∀ l, GetChangedCharts fs chartsDir files pattern = Except.ok l →
      ∀ c ∈ l, c.path ≠ dir) := by
  have hskip := processChartDirs_skip fs pattern dir h1 h2 (chartDirsOf chartsDir files) []
  constructor
  · exact hskip
  · intro l hl c hc
    rw [GetChangedCharts, hskip] at hl
    rcases processChartDirs_ok_paths fs pattern _ [] l hl c hc with h3 | h3
    · cases h3
    · have := List.mem_filter.mp h3
      simpa using this.2

/-- A filesystem where charts/a has an unparseable Chart.yaml and charts/b a
valid dev-versioned one. -/
def brokenFS : ChartFS :=
  ⟨fun d => d == "charts/a" || d == "charts/b",
   fun d => if d == "charts/b" then some ⟨"b", "0.0.0-dev"⟩ else none⟩

/-- C10 witness: with an unreadable charts/a among the candidates, the run is
the same as without it — charts/a is skipped, the rest proceeds. -/
theorem getChangedCharts_skips_unreadable_witness :
    GetChangedCharts brokenFS "charts"
        ["charts/a/Chart.yaml", "charts/b/Chart.yaml"] "^0\\.0\\.0-dev$"
      = processChartDirs brokenFS "^0\\.0\\.0-dev$"
          ((chartDirsOf "charts" ["charts/a/Chart.yaml", "charts/b/Chart.yaml"]).filter
            (fun x => x != "charts/a")) [] :=
  (getChangedCharts_skips_unreadable brokenFS "charts" "^0\\.0\\.0-dev$"
    ["charts/a/Chart.yaml", "charts/b/Chart.yaml"] "charts/a" (by rfl) (by rfl)).1

/-! Git baseline resolution. The git subprocess calls of `GetLatestTag`
(git.go, lines 50-73) are abstracted as an oracle record; `none` models a
failing git command. The initial `FetchTags` call is best-effort and does not
influence the returned value, so it is not represented. -/

/-- Oracle for the git queries `GetLatestTag` issues. -/
structure GitState where
  currentBranch : Option String
  describeParentTag : Option String
  rootCommit : Option String
  mergeBase : String → Option String

/-- `GetLatestTag` (git.go, lines 50-73): resolve the current branch (a
failure aborts); try `describe --tags --abbrev=0 HEAD~`; on failure use the
first-parent root commit when on the base branch, and the merge-base with the
base branch otherwise. -/
def GetLatestTag (g : GitState) (baseBranch : String) : Except String String :=
  match g.currentBranch with
  | none => Except.error "failed to get current branch"
  | some currentBranch =>
    match g.describeParentTag with
    | some tag => Except.ok tag
    | none =>
      if currentBranch = baseBranch then
        match g.rootCommit with
        | some c => Except.ok c
        | none => Except.error "git command failed"
      else
        match g.mergeBase baseBranch with
        | some c => Except.ok c
        | none => Except.error "git command failed"

/-- C7: diff-baseline resolution — when the current branch resolves,
`GetLatestTag` returns the `describe --tags --abbrev=0` result on the parent
of HEAD when that lookup succeeds; otherwise the first-parent root commit if
the current branch equals the base branch, and the merge-base of HEAD and the
base branch otherwise. -/
theorem getLatestTag_baseline (g : GitState) (b cur : String)
    (h : g.currentBranch = some cur) :
    (∀ t, g.describeParentTag = some t → GetLatestTag g b = Except.ok t) ∧
    (g.describeParentTag = none → cur = b →
      ∀ r, g.rootCommit = some r → GetLatestTag g b = Except.ok r) ∧
    (g.describeParentTag = none → cur ≠ b →
      ∀ m, g.mergeBase b = some m → GetLatestTag g b = Except.ok m) := by
  refine ⟨?_, ?_, ?_⟩
  · intro t ht
    simp [GetLatestTag, h, ht]
  · intro hd hcb r hr
    simp [GetLatestTag, h, hd, hcb, hr]
  · intro hd hcb m hm
    simp [GetLatestTag, h, hd, hcb, hm]

/-- A git state on branch main with tag v1.0 on the parent of HEAD. -/
def sampleGit : GitState :=
  ⟨some "main", some "v1.0", some "c0ffee",
   fun br => if br == "main" then some "abc123" else none⟩

/-- C7 witness: on `sampleGit` the tag found by describe wins. -/
theorem getLatestTag_baseline_witness :
    GetLatestTag sampleGit "main" = Except.ok "v1.0" :=
  (getLatestTag_baseline sampleGit "main" "main" rfl).1 "v1.0" rfl

/-! The delete-all workflow. The per-release deletion calls of
`deleteAllReleases` (main.go, lines 111-123) go through the
`ChartReleaseManager` wrapper, whose definition is not part of the sources;
its two per-item operations are modelled from the spec. -/

/-- A release as reported by the hosting platform. -/
structure Release where
  id : Int
  name : String
  tagName : String
deriving DecidableEq, Repr

/-- Modelled from the spec: `ChartReleaseManager.DeleteRelease` and
`ChartReleaseManager.DeleteTag`, the release-manager wrapper methods invoked
by main.go but defined outside the sources — fallible hosting-API deletion
calls returning `none` on success and an error message on failure. -/
structure ReleaseOracle where
  deleteRelease : Int → Option String
  deleteTag : String → Option String

/-- An attempted deletion of the delete-all loop. -/
inductive DelAction where
  | delRelease (id : Int) (name : String)
  | delTag (tag : String)
deriving DecidableEq, Repr

/-- The deletion loop of `deleteAllReleases` (main.go, lines 111-123): every
release gets a `DeleteRelease` attempt; a failure is only logged; when
`withTags` is set and the release has a tag name, the tag is also attempted
and a failure again only logged. Returns the attempted actions and the
failure log. -/
def deleteAllLoop (api : ReleaseOracle) (withTags : Bool) :
    List Release → List DelAction × List String
  | [] => ([], [])
  | r :: rest =>
    let relLog :=
      match api.deleteRelease r.id with
      | some e => ["Failed to delete release " ++ r.name ++ ": " ++ e]
      | none => []
    let tagActs :=
      if withTags ∧ r.tagName ≠ "" then [DelAction.delTag r.tagName] else []
    let tagLog :=
      if withTags ∧ r.tagName ≠ "" then
        match api.deleteTag r.tagName with
        | some e => ["Failed to delete tag " ++ r.tagName ++ ": " ++ e]
        | none => []
      else []
    let rst := deleteAllLoop api withTags rest
    (DelAction.delRelease r.id r.name :: (tagActs ++ rst.1), relLog ++ tagLog ++ rst.2)

/-- The outcome of the `delete-all` command (main.go, lines 73-135) after
confirmation, with the release list already fetched: the loop runs to the end
and the command returns success regardless of per-item failures. -/
def deleteAllReleasesCmd (api : ReleaseOracle) (withTags : Bool)
    (releases : List Release) : (List DelAction × List String) × Except String Unit :=
  (deleteAllLoop api withTags releases, Except.ok ())

/-- `GHClient.DeleteRelease` of chart-releaser github.go, lines 77-87: the
API call is commented out, so it always succeeds. -/
def ghDeleteRelease (_releaseID : Int) : Option String := none

/-- `GHClient.DeleteAllReleases` (github.go, lines 126-153): per-item errors
are collected and an aggregate error is returned exactly when the collection
is nonempty. -/
def ghDeleteAllReleases (releases : List Release) : Except String Unit :=
  let errors := releases.filterMap (fun r => ghDeleteRelease r.id)
  if errors.isEmpty then Except.ok ()
  else Except.error ("failed to delete some releases: " ++ String.intercalate "; " errors)

/-- C8 (amended): per-item recoverable deletion — in the delete-all workflow
a single release or tag deletion failure does not abort the run: every
release in the list still receives a deletion attempt and every failure is
logged; but the main.go command returns success regardless, with no aggregate
error. The chart-releaser `DeleteAllReleases` variant aggregates error
strings and fails exactly when one is collected, though its per-item delete
is stubbed to always succeed, so it too returns success. -/
theorem deleteAll_per_item_recoverable (api : ReleaseOracle) (withTags : Bool)
    (releases : List Release) :
    (∀ r ∈ releases,
      DelAction.delRelease r.id r.name ∈ (deleteAllLoop api withTags releases).1) ∧
    (∀ r ∈ releases, ∀ e, api.deleteRelease r.id = some e →
      ("Failed to delete release " ++ r.name ++ ": " ++ e)
        ∈ (deleteAllLoop api withTags releases).2) ∧
    (deleteAllReleasesCmd api withTags releases).2 = Except.ok () ∧
    ghDeleteAllReleases releases = Except.ok () := by
  refine ⟨?_, ?_, rfl, ?_⟩
  · induction releases with
    | nil => intro r hr; cases hr
    | cons r0 rest ih =>
      intro r hr
      rcases List.mem_cons.mp hr with h1 | h1
      · subst h1
        simp [deleteAllLoop]
      · simp only [deleteAllLoop]
        simp only [List.mem_cons, List.mem_append]
        right
        right
        exact ih r h1
  · induction releases with
    | nil => intro r hr; cases hr
    | cons r0 rest ih =>
      intro r hr e he
      rcases List.mem_cons.mp hr with h1 | h1
      · subst h1
        simp [deleteAllLoop, he]
      · simp only [deleteAllLoop, List.mem_append]
        right
        exact ih r h1 e he
  · simp [ghDeleteAllReleases, ghDeleteRelease]

/-- A deletion oracle failing exactly on release id 1. -/
def failingOracle : ReleaseOracle :=
  ⟨fun i => if i = 1 then some "boom" else none, fun _ => none⟩

/-- Two sample releases. -/
def twoReleases : List Release := [⟨1, "r1", "t1"⟩, ⟨2, "r2", "t2"⟩]

/-- C8 counterexample: a per-item deletion fails (the failure is logged and
the remaining release is still attempted), yet the delete-all command of
main.go returns success — no aggregate error is returned, against the
claim that one is returned exactly when a per-item deletion failed. -/
theorem deleteAll_no_aggregate_cex :
    (deleteAllLoop failingOracle true twoReleases).2
      = ["Failed to delete release r1: boom"] ∧
    DelAction.delRelease 2 "r2" ∈ (deleteAllLoop failingOracle true twoReleases).1 ∧
    (deleteAllReleasesCmd failingOracle true twoReleases).2 = Except.ok () := by
  refine ⟨by rfl, by decide, rfl⟩

/-- C8 witness: the amended theorem applied to the failing oracle — the
failure of release 1 is logged, release 2 is still attempted, the command
succeeds. -/
theorem deleteAll_per_item_recoverable_witness :
    ("Failed to delete release r1: boom"
      ∈ (deleteAllLoop failingOracle true twoReleases).2) ∧
    DelAction.delRelease 2 "r2" ∈ (deleteAllLoop failingOracle true twoReleases).1 :=
  ⟨(deleteAll_per_item_recoverable failingOracle true twoReleases).2.1
      ⟨1, "r1", "t1"⟩ (by decide) "boom" (by rfl),
   (deleteAll_per_item_recoverable failingOracle true twoReleases).1
      ⟨2, "r2", "t2"⟩ (by decide)⟩

end ChartCleanup
